import Mathlib

/-
  Verification of the merge-tree / interval-collection specification of this
  repository, together with the summarization heuristics and blob typing
  helpers, against a shallow embedding of the code.

  The corpus contains the tests of the sequence CRDT (SharedString, interval
  collections, HistoryEditFactory.revert) but not their implementations, so
  those parts are modelled from the specification, at one element per segment
  granularity; the summarizer heuristics runner and getFileBlobType are
  embedded directly from their TypeScript sources.
-/

namespace FluidSpec

/-- Modelled from the spec: a single sequence element with its causal stamps
(section 3, Segment), at one-element granularity. `cid` is the stable element
identity, `seq` the sequence number at which it became visible, `removedSeq`
and `removedClient` the removal stamps (none while live). The merge-tree
implementation is absent from the corpus (only its tests are present). -/
structure ICh where
  cid : Nat
  ch : Char
  seq : Nat
  clientId : Nat
  removedSeq : Option Nat
  removedClient : Option Nat
deriving DecidableEq

/-- Modelled from the spec: visibility of an element to the issuer of an
operation with client id `c` and reference sequence number `r` (section 4.2):
the insertion has been seen (or is the issuer's own) and the removal has not. -/
def visibleTo (c r : Nat) (x : ICh) : Bool :=
  (x.seq ≤ r || x.clientId = c) &&
    match x.removedSeq with
    | none => true
    | some rs => !(rs ≤ r || x.removedClient = some c)

/-- Modelled from the spec and the in-src merge-tree test: place new elements
at position `pos` of the view of client `c` at refSeq `r`. Elements invisible
to the issuer pass by without being counted, and once the position is reached
the new content is placed immediately — in particular before any content of
concurrent inserts sitting at that boundary. Ops are applied in global
sequence order, so the later-sequenced of two concurrent same-position
inserts ends up first, which is the converged order the enabled test
asserts ("whaabcxyz"). -/
def insertAt (newcs : List ICh) (c r : Nat) : Nat → List ICh → List ICh
  | _, [] => newcs
  | pos, x :: rest =>
    if pos = 0 then newcs ++ x :: rest
    else if visibleTo c r x then x :: insertAt newcs c r (pos - 1) rest
    else x :: insertAt newcs c r pos rest

/-- Number of elements of `l` visible to client `c` at refSeq `r`. -/
def countVisible (c r : Nat) (l : List ICh) : Nat :=
  (l.filter (visibleTo c r)).length

/-- Fresh live elements for an inserted string, with consecutive identities. -/
def mkChars : Nat → List Char → Nat → Nat → List ICh
  | _, [], _, _ => []
  | i, a :: as, sq, c => ⟨i, a, sq, c, none, none⟩ :: mkChars (i + 1) as sq c

/-- Modelled from the spec: stamp as removed every element whose position in
the issuing client's view lies in the half-open range, keeping the earliest
removal stamp when a concurrent remove already stamped it (section 4.2). -/
def removeChars (c r sq lo hi : Nat) : Nat → List ICh → List ICh
  | _, [] => []
  | i, x :: rest =>
    if visibleTo c r x then
      (if lo ≤ i ∧ i < hi ∧ x.removedSeq = none
       then { x with removedSeq := some sq, removedClient := some c }
       else x) :: removeChars c r sq lo hi (i + 1) rest
    else x :: removeChars c r sq lo hi i rest

/-- Identity of the element at position `p` of the view of client `c` at
refSeq `r`; `none` denotes the end-of-sequence anchor. -/
def anchorAtPos (c r : Nat) : Nat → List ICh → Option Nat
  | _, [] => none
  | p, x :: rest =>
    if visibleTo c r x then
      if p = 0 then some x.cid else anchorAtPos c r (p - 1) rest
    else anchorAtPos c r p rest

/-- The visible characters of a fully synchronized element list. -/
def textOfL (l : List ICh) : List Char :=
  (l.filter (fun x => x.removedSeq.isNone)).map (fun x => x.ch)

/-- Number of live elements. -/
def liveLength (l : List ICh) : Nat :=
  (l.filter (fun x => x.removedSeq.isNone)).length

/-- Modelled from the spec: resolve an anchor to a position (section 4.3).
A live host resolves to its visible index; a removed host slides forward to
the nearest live element, collapsing at the end of the sequence when no live
neighbor exists. Both cases equal the count of live elements physically before
the host, which is the form used here. -/
def resolveAnchorChars (l : List ICh) : Option Nat → Nat
  | none => liveLength l
  | some a => liveLength (l.take (l.findIdx (fun x => x.cid = a)))

/-- Modelled from the spec: an interval of an interval collection (section 3),
two anchors plus type tag and property bag. -/
structure Interval where
  intervalId : String
  startA : Option Nat
  endA : Option Nat
  intervalType : String
  props : List (String × String)
deriving DecidableEq

/-- Modelled from the spec: the state of one peer's sequence and its interval
collections after all delivered operations have been applied. -/
structure DocState where
  chars : List ICh
  nextId : Nat
  colls : List (String × List Interval)
deriving DecidableEq

def initState : DocState := ⟨[], 0, []⟩

def DocState.getText (s : DocState) : String := ⟨textOfL s.chars⟩

def DocState.visibleLength (s : DocState) : Nat := liveLength s.chars

/-- Replace the interval with the same id, or append when absent. -/
def upsertInterval (itv : Interval) : List Interval → List Interval
  | [] => [itv]
  | x :: rest =>
    if x.intervalId = itv.intervalId then itv :: rest else x :: upsertInterval itv rest

def addToColl (label : String) (itv : Interval) :
    List (String × List Interval) → List (String × List Interval)
  | [] => [(label, [itv])]
  | (l, is) :: rest =>
    if l = label then (l, upsertInterval itv is) :: rest
    else (l, is) :: addToColl label itv rest

def modifyColl (iid : String) (f : Interval → Interval) : List Interval → List Interval
  | [] => []
  | x :: rest =>
    if x.intervalId = iid then f x :: rest else x :: modifyColl iid f rest

def modifyIntervalIn (label iid : String) (f : Interval → Interval) :
    List (String × List Interval) → List (String × List Interval)
  | [] => []
  | (l, is) :: rest =>
    if l = label then (l, modifyColl iid f is) :: rest
    else (l, is) :: modifyIntervalIn label iid f rest

def removeIntervalIn (label iid : String) :
    List (String × List Interval) → List (String × List Interval)
  | [] => []
  | (l, is) :: rest =>
    if l = label then (l, is.filter (fun itv => itv.intervalId ≠ iid)) :: rest
    else (l, is) :: removeIntervalIn label iid rest

def lookupIntervalIn (colls : List (String × List Interval)) (label iid : String) :
    Option Interval :=
  match colls.find? (fun c => c.1 = label) with
  | none => none
  | some c => c.2.find? (fun itv => itv.intervalId = iid)

def hasIntervalId (colls : List (String × List Interval)) (label iid : String) : Bool :=
  colls.any (fun c => c.1 = label && c.2.any (fun itv => itv.intervalId = iid))

/-- Overwrite the value at a key, preserving other entries. -/
def setProp (k v : String) : List (String × String) → List (String × String)
  | [] => [(k, v)]
  | (a, b) :: rest => if a = k then (k, v) :: rest else (a, b) :: setProp k v rest

/-- Modelled from the spec: changeProperties merges the patch into the
existing property bag, overwriting existing keys and preserving others
(section 4.4). -/
def mergeProps (old patch : List (String × String)) : List (String × String) :=
  patch.foldl (fun acc kv => setProp kv.1 kv.2 acc) old

/-- Modelled from the spec: the operations a client emits (section 6), as
they reach the ordering service. -/
inductive Op where
  | insertText (pos : Nat) (content : String)
  | removeRange (lo hi : Nat)
  | addInterval (label iid : String) (lo hi : Nat)
  | changeInterval (label iid : String) (newLo newHi : Option Nat)
  | deleteInterval (label iid : String)
  | changeProperties (label iid : String) (patch : List (String × String))
deriving DecidableEq

/-- An operation as delivered back by the ordering service: stamped with its
assigned global sequence number, its author and the author's refSeq. -/
structure SeqOp where
  seq : Nat
  clientId : Nat
  refSeq : Nat
  op : Op
deriving DecidableEq

/-- Modelled from the spec: application of one sequenced operation to a peer
state (sections 4.2 and 4.4). Positions carried by the operation are resolved
against the issuing client's view, reconstructed from its refSeq and client
id; interval anchors attach to the stable identity of the element at the
resolved position. -/
def applyOp (s : DocState) (o : SeqOp) : DocState :=
  match o.op with
  | .insertText pos content =>
    { s with
      chars := insertAt (mkChars s.nextId content.data o.seq o.clientId)
                 o.clientId o.refSeq pos s.chars
      nextId := s.nextId + content.length }
  | .removeRange lo hi =>
    { s with chars := removeChars o.clientId o.refSeq o.seq lo hi 0 s.chars }
  | .addInterval label iid lo hi =>
    { s with
      colls := addToColl label
        ⟨iid, anchorAtPos o.clientId o.refSeq lo s.chars,
              anchorAtPos o.clientId o.refSeq hi s.chars,
              "slideOnRemove", []⟩ s.colls }
  | .changeInterval label iid newLo newHi =>
    { s with
      colls := modifyIntervalIn label iid
        (fun itv =>
          { itv with
            startA := match newLo with
              | none => itv.startA
              | some p => anchorAtPos o.clientId o.refSeq p s.chars
            endA := match newHi with
              | none => itv.endA
              | some p => anchorAtPos o.clientId o.refSeq p s.chars })
        s.colls }
  | .deleteInterval label iid =>
    { s with colls := removeIntervalIn label iid s.colls }
  | .changeProperties label iid patch =>
    { s with
      colls := modifyIntervalIn label iid
        (fun itv => { itv with props := mergeProps itv.props patch }) s.colls }

def applyAll (s : DocState) (ops : List SeqOp) : DocState := ops.foldl applyOp s

/-- Modelled from the spec: the state of a peer that had consumed the first
`k` delivered operations at its own pace and then synchronizes by processing
the remainder in delivery order (sections 5 and 8). -/
def peerFinal (ops : List SeqOp) (k : Nat) : DocState :=
  applyAll (applyAll initState (ops.take k)) (ops.drop k)

def collectionLabels (s : DocState) : List String := s.colls.map Prod.fst

/-- The observable content of one interval: resolved start and end positions,
interval type and properties, as compared by the consistency assertions. -/
def resolvedIntervalInfo (s : DocState) (label iid : String) :
    Option (Nat × Nat × String × List (String × String)) :=
  (lookupIntervalIn s.colls label iid).map
    (fun itv => (resolveAnchorChars s.chars itv.startA,
                 resolveAnchorChars s.chars itv.endA,
                 itv.intervalType, itv.props))

/-- Modelled from the spec: a pending local addInterval awaiting
acknowledgment (sections 3 and 4.5); it records the originally requested
positions and the anchors captured against the issuing client's state. -/
structure PendingAddInterval where
  label : String
  intervalId : String
  origLo : Nat
  origHi : Nat
  startAnchor : Option Nat
  endAnchor : Option Nat
deriving DecidableEq

def capturePendingAdd (s : DocState) (c r : Nat) (label iid : String) (lo hi : Nat) :
    PendingAddInterval :=
  ⟨label, iid, lo, hi, anchorAtPos c r lo s.chars, anchorAtPos c r hi s.chars⟩

/-- Modelled from the spec: on reconnection a pending operation's intent is
recomputed against the latest acknowledged state (section 4.5) — for an
interval add, the positions its anchors resolve to now, not the original
positions. -/
def resubmitPositions (s : DocState) (p : PendingAddInterval) : Nat × Nat :=
  (resolveAnchorChars s.chars p.startAnchor, resolveAnchorChars s.chars p.endAnchor)

/-- Modelled from the spec: a segment of the merge tree proper (sections 3 and
4.1) — a run of elements sharing one set of causal stamps and properties. -/
structure Seg where
  content : List (Nat × Char)
  seq : Nat
  clientId : Nat
  removedSeq : Option Nat
  removedClient : Option Nat
  props : List (String × String)
deriving DecidableEq

/-- Modelled from the spec: two adjacent segments may be merged exactly when
their causal stamps and properties coincide (section 4.1). -/
def canAppend (a b : Seg) : Bool :=
  a.seq = b.seq && a.clientId = b.clientId && a.removedSeq = b.removedSeq &&
    a.removedClient = b.removedClient && a.props = b.props

def glue (a b : Seg) : Seg := { a with content := a.content ++ b.content }

/-- The elements of a segment, stamps distributed to each element. -/
def Seg.elems (g : Seg) : List ICh :=
  g.content.map (fun p => ⟨p.1, p.2, g.seq, g.clientId, g.removedSeq, g.removedClient⟩)

def flattenSegs (l : List Seg) : List ICh := (l.map Seg.elems).flatten

/-- Modelled from the spec: one compaction pass (section 4.2, packing) —
merge adjacent segments whenever their stamps and properties allow it. -/
def pack : List Seg → List Seg
  | [] => []
  | g :: rest =>
    match pack rest with
    | [] => [g]
    | h :: t => if canAppend g h then glue g h :: t else g :: h :: t

/-- The compaction pass iterated `n` times. -/
def packN : Nat → List Seg → List Seg
  | 0, l => l
  | n + 1, l => packN n (pack l)

/-- Modelled from the spec: splitting a segment at an offset inside it yields
two segments whose combined content equals the original; an out-of-range
offset is a programming error reported as a failure (section 4.1). -/
def splitSeg (g : Seg) (offset : Nat) : Except String (Seg × Seg) :=
  if offset ≤ g.content.length then
    .ok ({ g with content := g.content.take offset },
         { g with content := g.content.drop offset })
  else .error "offset out of range"

/-- A node of the tree history model used by revert. -/
structure RNode where
  nodeId : Nat
  payload : String
deriving DecidableEq

/-- Modelled from the spec: the edit primitives that HistoryEditFactory.revert
consumes, per its tests — build a detached sequence, insert it, detach a range
of nodes (optionally into a destination id), set a node's payload. -/
inductive RChange where
  | build (nodes : List Nat) (destination : Nat)
  | insertSeq (source : Nat) (referenceSibling : Nat)
  | detach (nodes : List Nat) (destination : Option Nat)
  | setPayload (node : Nat) (value : String)
deriving DecidableEq

/-- The possible outcomes of revert: an inverse change list, the undefined
result the TypeScript function returns for conflicted or malformed edits, or
a thrown error. -/
inductive RevertResult where
  | ok (changes : List RChange)
  | notFound
  | fatal (message : String)
deriving DecidableEq

def RevertResult.isFatal : RevertResult → Bool
  | fatal _ => true
  | _ => false

def findNode (view : List RNode) (n : Nat) : Option RNode :=
  view.find? (fun x => x.nodeId = n)

/-- Modelled from the spec: HistoryEditFactory.revert, whose implementation is
absent from the corpus; behavior follows its tests and section 7. It walks the
changes tracking the detached-sequence ids currently built, accumulating
inverse changes, and returns the undefined result (notFound) when a change's
target is missing from the view (conflicted) or a detached id is unbuilt,
already consumed, or already occupied (malformed). -/
def revertGo (view : List RNode) : List RChange → List Nat → List RChange → RevertResult
  | [], _, acc => .ok acc
  | .build _ dst :: rest, built, acc =>
    if dst ∈ built then .notFound
    else revertGo view rest (dst :: built) acc
  | .insertSeq src _ :: rest, built, acc =>
    if src ∈ built then revertGo view rest (built.erase src) (.detach [src] none :: acc)
    else .notFound
  | .detach nodes dst :: rest, built, acc =>
    if nodes.all (fun n => (findNode view n).isSome) then
      match dst with
      | none => revertGo view rest built (.insertSeq 0 (nodes.headD 0) :: acc)
      | some d =>
        if d ∈ built then .notFound
        else revertGo view rest (d :: built) (.insertSeq d (nodes.headD 0) :: acc)
    else .notFound
  | .setPayload n _ :: rest, built, acc =>
    match findNode view n with
    | none => .notFound
    | some x => revertGo view rest built (.setPayload n x.payload :: acc)

def revert (changes : List RChange) (view : List RNode) : RevertResult :=
  revertGo view changes [] []

/-- The reasons SummarizeHeuristicRunner can pass to trySummarize. -/
inductive SummarizeReason where
  | maxTime
  | maxOps
  | idle
deriving DecidableEq

/-- The externally visible effects of one SummarizeHeuristicRunner.run call. -/
inductive RunEffect where
  | clearIdleTimer
  | trySummarize (reason : SummarizeReason)
  | restartIdleTimer
deriving DecidableEq

/-- The data run reads: the current clock, the latest op sequence number and
the reference sequence number and time of the last successful summary. -/
structure HeuristicState where
  now : Int
  lastOpSequenceNumber : Int
  lastSuccessfulRefSeq : Int
  lastSuccessfulSummaryTime : Int
deriving DecidableEq

structure SummaryConfiguration where
  maxTime : Int
  maxOps : Int
deriving DecidableEq

/-- Embeds SummarizeHeuristicRunner.opsSinceLastAck:
lastOpSequenceNumber - lastSuccessfulSummary.refSequenceNumber. -/
def opsSinceLastAck (h : HeuristicState) : Int :=
  h.lastOpSequenceNumber - h.lastSuccessfulRefSeq

/-- Embeds SummarizeHeuristicRunner.run as the list of effects it performs:
strictly-greater comparison of the time since the last successful summary with
maxTime, else of opsSinceLastAck with maxOps, else an idle-timer restart. -/
def runHeuristics (cfg : SummaryConfiguration) (h : HeuristicState) : List RunEffect :=
  let timeSinceLastSummary := h.now - h.lastSuccessfulSummaryTime
  let ops := opsSinceLastAck h
  if timeSinceLastSummary > cfg.maxTime then
    [.clearIdleTimer, .trySummarize .maxTime]
  else if ops > cfg.maxOps then
    [.clearIdleTimer, .trySummarize .maxOps]
  else
    [.restartIdleTimer]

def countTrySummarize (effects : List RunEffect) : Nat :=
  (effects.filter (fun e => match e with | .trySummarize _ => true | _ => false)).length

/-- Embeds getFileBlobType from blobs.ts: a switch on the mime type. -/
def getFileBlobType (mimeType : String) : String :=
  if mimeType = "image/jpeg" ∨ mimeType = "image/png" ∨
     mimeType = "image/gif" ∨ mimeType = "image/bmp" then "image"
  else if mimeType = "video/mp4" then "video"
  else if mimeType = "text/plain" then "text"
  else "generic"

/-- The type tags of the IGenericBlob union (IDataBlob, IImageBlob,
IVideoBlob) from blobs.ts. -/
def genericBlobTypeTags : List String := ["generic", "image", "video"]

/-- The sequenced trace of the enabled in-src test "can maintain interval
consistency" up to its first convergence assertion: client 1 inserts "xyz" at
0 (sequence 1) and synchronizes, then inserts "abc" at 0 and adds an interval
at (1,1) while client 2 concurrently (refSeq 1) inserts "wha" at 0; the test
asserts the converged text "whaabcxyz" and the interval at (4,4). -/
def mergeTreeTestTrace : List SeqOp :=
  [⟨1, 1, 0, .insertText 0 "xyz"⟩,
   ⟨2, 1, 1, .insertText 0 "abc"⟩,
   ⟨3, 1, 1, .addInterval "test" "itv" 1 1⟩,
   ⟨4, 2, 1, .insertText 0 "wha"⟩]

/-- The slide-on-remove example scenario of section 8: insert the text
"hello friend", anchor an interval at positions 6 to 8, then a second client
removes positions 5 to 9. -/
def slideScenarioOps : List SeqOp :=
  [⟨1, 1, 0, .insertText 0 "hello friend"⟩,
   ⟨2, 1, 1, .addInterval "test" "itv" 6 8⟩,
   ⟨3, 2, 1, .removeRange 5 9⟩]

def slideScenario : DocState := applyAll initState slideScenarioOps

/-- Base state for the last-writer-wins example: the text "hello" with an
interval at positions 1 to 3. -/
def lwwBase : DocState :=
  applyAll initState
    [⟨1, 1, 0, .insertText 0 "hello"⟩, ⟨2, 1, 1, .addInterval "test" "itv" 1 3⟩]

def lwwFirstChange : SeqOp := ⟨3, 1, 2, .changeInterval "test" "itv" (some 0) (some 2)⟩

def lwwSecondChange : SeqOp := ⟨4, 2, 2, .changeInterval "test" "itv" (some 2) (some 4)⟩

/-- The resubmission example scenario of section 8: a two-character document,
a pending local interval add at positions (1,1) captured before disconnect,
and six characters inserted at position 0 by another peer while offline. -/
def resubmitBase : DocState := applyOp initState ⟨1, 1, 0, .insertText 0 "hi"⟩

def resubmitPending : PendingAddInterval :=
  capturePendingAdd resubmitBase 1 1 "test" "itv" 1 1

def resubmitAfterOffline : DocState :=
  applyOp resubmitBase ⟨2, 2, 1, .insertText 0 "family"⟩

/-- A two-node view used to exercise the revert model. -/
def rviewSample : List RNode := [⟨1, "a"⟩, ⟨2, "b"⟩]

theorem peerFinal_eq (ops : List SeqOp) (k : Nat) :
    peerFinal ops k = applyAll initState ops := by
  unfold peerFinal applyAll
  rw [← List.foldl_append, List.take_append_drop]

theorem mkChars_mem (i : Nat) (cs : List Char) (sq c : Nat) :
    ∀ x ∈ mkChars i cs sq c, x.seq = sq ∧ x.clientId = c ∧ x.removedSeq = none := by
  induction cs generalizing i with
  | nil => simp [mkChars]
  | cons a as ih =>
    intro x hx
    simp only [mkChars, List.mem_cons] at hx
    rcases hx with rfl | hx
    · exact ⟨rfl, rfl, rfl⟩
    · exact ih (i + 1) x hx

theorem insertAt_zero (newcs : List ICh) (c r : Nat) (l : List ICh) :
    insertAt newcs c r 0 l = newcs ++ l := by
  cases l with
  | nil => simp [insertAt]
  | cons x rest => simp [insertAt]

theorem insertAt_insertAt (n1 n2 : List ICh) (c1 c2 r : Nat) (l : List ICh) (p : Nat)
    (hu : ∀ x ∈ l, visibleTo c1 r x = visibleTo c2 r x)
    (hp : p ≤ countVisible c1 r l) :
    insertAt n2 c2 r p (insertAt n1 c1 r p l) = insertAt (n2 ++ n1) c1 r p l := by
  induction l generalizing p with
  | nil =>
    have hp0 : p = 0 := Nat.le_zero.mp (by simpa [countVisible] using hp)
    subst hp0
    show insertAt n2 c2 r 0 n1 = insertAt (n2 ++ n1) c1 r 0 []
    rw [insertAt_zero]
    rfl
  | cons x rest ih =>
    cases p with
    | zero =>
      rw [insertAt_zero, insertAt_zero, insertAt_zero, List.append_assoc]
    | succ q =>
      have hx := hu x (by simp)
      by_cases hv : visibleTo c1 r x = true
      · have hv2 : visibleTo c2 r x = true := hx ▸ hv
        have hq : q ≤ countVisible c1 r rest := by
          simpa [countVisible, List.filter_cons, hv] using hp
        simp only [insertAt, Nat.succ_ne_zero, if_false, hv, hv2, if_true,
          Nat.add_sub_cancel]
        exact congrArg (x :: ·) (ih q (fun y hy => hu y (by simp [hy])) hq)
      · have hv2 : visibleTo c2 r x = false := by
          rw [← hx]; exact Bool.eq_false_iff.mpr hv
        have hq : q + 1 ≤ countVisible c1 r rest := by
          simpa [countVisible, List.filter_cons, Bool.eq_false_iff.mpr hv] using hp
        simp only [insertAt, Nat.succ_ne_zero, if_false, hv, hv2, Bool.false_eq_true]
        exact congrArg (x :: ·) (ih (q + 1) (fun y hy => hu y (by simp [hy])) hq)

theorem textOfL_append (l1 l2 : List ICh) :
    textOfL (l1 ++ l2) = textOfL l1 ++ textOfL l2 := by
  simp [textOfL, List.filter_append]

theorem textOfL_mkChars (i : Nat) (cs : List Char) (sq c : Nat) :
    textOfL (mkChars i cs sq c) = cs := by
  induction cs generalizing i with
  | nil => simp [mkChars, textOfL]
  | cons a as ih => simp [mkChars, textOfL, Option.isNone] at ih ⊢; exact ih (i + 1)

theorem stringMk_append (a b : List Char) :
    (⟨a⟩ : String) ++ (⟨b⟩ : String) = ⟨a ++ b⟩ := rfl

/-- C1: for any multiset of operations delivered to every peer in the same
global order, with each peer consuming an arbitrary prefix at its own pace
before synchronizing, every pair of peers ends with identical visible text,
identical interval-collection labels, and the same resolved start position,
end position, intervalType and properties for every interval. -/
theorem convergence_after_sync (ops : List SeqOp) (k1 k2 : Nat) :
    (peerFinal ops k1).getText = (peerFinal ops k2).getText ∧
    collectionLabels (peerFinal ops k1) = collectionLabels (peerFinal ops k2) ∧
    ∀ label iid, resolvedIntervalInfo (peerFinal ops k1) label iid =
      resolvedIntervalInfo (peerFinal ops k2) label iid := by
  rw [peerFinal_eq ops k1, peerFinal_eq ops k2]
  exact ⟨rfl, rfl, fun _ _ => rfl⟩

/-- C2 counterexample: at the claim's own example input — client A inserts
"abc" at position 0 of the empty document with sequence number 1, client B
concurrently (refSeq 0) inserts "xyz" at position 0 with sequence number 2 —
the converged text is "xyzabc", not the claimed "abcxyz": the later-sequenced
insert precedes. The same model replays the enabled in-src test's sequenced
trace and reproduces exactly its asserted convergence, "whaabcxyz" with the
interval at (4,4), where "wha" carries the highest sequence number yet ends
up first. -/
theorem concurrent_insert_lower_seq_first_false :
    (applyOp (applyOp initState ⟨1, 1, 0, .insertText 0 "abc"⟩)
      ⟨2, 2, 0, .insertText 0 "xyz"⟩).getText = "xyzabc" ∧
    ("xyzabc" : String) ≠ "abcxyz" ∧
    (applyAll initState mergeTreeTestTrace).getText = "whaabcxyz" ∧
    resolvedIntervalInfo (applyAll initState mergeTreeTestTrace) "test" "itv" =
      some (4, 4, "slideOnRemove", []) := by
  refine ⟨by decide, by decide, by decide, by decide⟩

/-- C2 amended: for any state whose elements the two clients see alike, when
the two clients concurrently (same refSeq) insert at the same position, the
converged order places the insert with the higher sequence number first:
applying both sequenced inserts is the same as a single insert, at that
position, of the later content followed by the earlier content. -/
theorem concurrent_insert_higher_seq_first (s : DocState) (a b : String)
    (c1 c2 r s1 s2 p : Nat) (hc : c1 ≠ c2) (hr : r < s1) (h12 : s1 < s2)
    (hu : ∀ x ∈ s.chars, visibleTo c1 r x = visibleTo c2 r x)
    (hp : p ≤ countVisible c1 r s.chars) :
    (applyOp (applyOp s ⟨s1, c1, r, .insertText p a⟩)
      ⟨s2, c2, r, .insertText p b⟩).chars =
      insertAt (mkChars (s.nextId + a.length) b.data s2 c2 ++
        mkChars s.nextId a.data s1 c1) c1 r p s.chars := by
  show insertAt (mkChars (s.nextId + a.length) b.data s2 c2) c2 r p
    (insertAt (mkChars s.nextId a.data s1 c1) c1 r p s.chars) = _
  exact insertAt_insertAt _ _ c1 c2 r s.chars p hu hp

/-- C2 amended witness: at the example input (empty document, "abc" with
sequence 1 by client 1, "xyz" with sequence 2 by client 2, both at position 0
with refSeq 0), the converged element sequence is the single insert of the
"xyz" elements followed by the "abc" elements, and the converged text is
"xyzabc". -/
theorem concurrent_insert_higher_seq_first_witness :
    (applyOp (applyOp initState ⟨1, 1, 0, .insertText 0 "abc"⟩)
      ⟨2, 2, 0, .insertText 0 "xyz"⟩).chars =
      insertAt (mkChars (initState.nextId + "abc".length) "xyz".data 2 2 ++
        mkChars initState.nextId "abc".data 1 1) 1 0 0 initState.chars ∧
    (applyOp (applyOp initState ⟨1, 1, 0, .insertText 0 "abc"⟩)
      ⟨2, 2, 0, .insertText 0 "xyz"⟩).getText = "xyzabc" :=
  ⟨concurrent_insert_higher_seq_first initState "abc" "xyz" 1 2 0 1 2 0
     (by decide) (by decide) (by decide)
     (fun x hx => absurd hx (List.not_mem_nil x)) (by decide),
   by decide⟩

theorem liveLength_append (l1 l2 : List ICh) :
    liveLength (l1 ++ l2) = liveLength l1 + liveLength l2 := by
  simp [liveLength, List.filter_append]

theorem liveLength_take_le (l : List ICh) (k : Nat) :
    liveLength (l.take k) ≤ liveLength l := by
  exact List.Sublist.length_le (List.Sublist.filter _ (List.take_sublist k l))

/-- C3: when every element from the physical location of an interval's start
anchor up to that of its end anchor is removed (both anchors lie inside a
removed range), the interval resolves to a single zero-width point: the start
and end anchors slide to the same defined position, which lies within the
visible document. -/
theorem slide_on_remove_collapse (l : List ICh) (a b : Nat)
    (hab : l.findIdx (fun x => x.cid = a) ≤ l.findIdx (fun x => x.cid = b))
    (hrem : ∀ x ∈ (l.take (l.findIdx (fun x => x.cid = b))).drop
      (l.findIdx (fun x => x.cid = a)), x.removedSeq ≠ none) :
    resolveAnchorChars l (some a) = resolveAnchorChars l (some b) ∧
    resolveAnchorChars l (some a) ≤ liveLength l := by
  set ka := l.findIdx (fun x => x.cid = a) with hka
  set kb := l.findIdx (fun x => x.cid = b) with hkb
  have htt : List.take ka (l.take kb) = l.take ka := by
    rw [List.take_take, Nat.min_eq_left hab]
  have hsplit : l.take kb = l.take ka ++ (l.take kb).drop ka := by
    conv_lhs => rw [← List.take_append_drop ka (l.take kb)]
    rw [htt]
  have hmid : liveLength ((l.take kb).drop ka) = 0 := by
    have hnil : ((l.take kb).drop ka).filter (fun x => x.removedSeq.isNone) = [] := by
      rw [List.filter_eq_nil_iff]
      intro x hx
      have := hrem x hx
      cases hrs : x.removedSeq with
      | none => exact absurd hrs this
      | some v => simp [Option.isNone, hrs]
    simp [liveLength, hnil]
  constructor
  · show liveLength (l.take ka) = liveLength (l.take kb)
    rw [hsplit, liveLength_append, hmid]
    omega
  · exact liveLength_take_le l ka

/-- C3 witness: in the section 8 scenario (document "hello friend", interval
anchored at positions 6 to 8, concurrent removal of positions 5 to 9), the
interval collapses to the zero-width point at position 5, the converged text
being "helloend". -/
theorem slide_on_remove_collapse_witness :
    (resolveAnchorChars slideScenario.chars (some 6) =
       resolveAnchorChars slideScenario.chars (some 8) ∧
     resolveAnchorChars slideScenario.chars (some 6) ≤ liveLength slideScenario.chars) ∧
    resolvedIntervalInfo slideScenario "test" "itv" = some (5, 5, "slideOnRemove", []) ∧
    slideScenario.getText = "helloend" :=
  ⟨slide_on_remove_collapse slideScenario.chars 6 8 (by decide) (by decide),
   by decide, by decide⟩

theorem modifyColl_modifyColl (iid : String) (f1 f2 : Interval → Interval)
    (hid : ∀ itv, (f1 itv).intervalId = itv.intervalId) (l : List Interval) :
    modifyColl iid f2 (modifyColl iid f1 l) = modifyColl iid (fun x => f2 (f1 x)) l := by
  induction l with
  | nil => simp [modifyColl]
  | cons x rest ih =>
    by_cases hx : x.intervalId = iid
    · simp [modifyColl, hx, hid x]
    · simp [modifyColl, hx, ih]

theorem modifyIntervalIn_modifyIntervalIn (label iid : String)
    (f1 f2 : Interval → Interval) (hid : ∀ itv, (f1 itv).intervalId = itv.intervalId)
    (colls : List (String × List Interval)) :
    modifyIntervalIn label iid f2 (modifyIntervalIn label iid f1 colls) =
      modifyIntervalIn label iid (fun x => f2 (f1 x)) colls := by
  induction colls with
  | nil => simp [modifyIntervalIn]
  | cons c rest ih =>
    obtain ⟨l, is⟩ := c
    by_cases hl : l = label
    · simp [modifyIntervalIn, hl, modifyColl_modifyColl iid f1 f2 hid]
    · simp [modifyIntervalIn, hl, ih]

/-- C4: when two peers concurrently change the same interval id, each
supplying both bounds, applying the earlier-sequenced change before the later
one yields exactly the state of applying the later change alone — the
causally-last write's start and end win, with no merge of the two writes; in
particular the resolved bounds, type and properties of the interval are those
of the winning write. -/
theorem lww_change (s : DocState) (o1 o2 : SeqOp) (label iid : String)
    (a1 b1 a2 b2 : Nat)
    (h1 : o1.op = .changeInterval label iid (some a1) (some b1))
    (h2 : o2.op = .changeInterval label iid (some a2) (some b2)) :
    applyOp (applyOp s o1) o2 = applyOp s o2 ∧
    resolvedIntervalInfo (applyOp (applyOp s o1) o2) label iid =
      resolvedIntervalInfo (applyOp s o2) label iid := by
  have hmain : applyOp (applyOp s o1) o2 = applyOp s o2 := by
    simp only [applyOp, h1, h2]
    congr 1
    exact modifyIntervalIn_modifyIntervalIn label iid
      (fun itv =>
        { itv with startA := anchorAtPos o1.clientId o1.refSeq a1 s.chars,
                   endA := anchorAtPos o1.clientId o1.refSeq b1 s.chars })
      (fun itv =>
        { itv with startA := anchorAtPos o2.clientId o2.refSeq a2 s.chars,
                   endA := anchorAtPos o2.clientId o2.refSeq b2 s.chars })
      (fun itv => rfl) s.colls
  exact ⟨hmain, by rw [hmain]⟩

/-- C4 witness: on the document "hello" with an interval at positions (1,3),
a change to (0,2) with sequence number 3 followed by a concurrent change to
(2,4) with sequence number 4 leaves exactly the state of the later change:
the interval resolves to (2,4), not to any merge of the two writes. -/
theorem lww_change_witness :
    (applyOp (applyOp lwwBase lwwFirstChange) lwwSecondChange =
       applyOp lwwBase lwwSecondChange ∧
     resolvedIntervalInfo (applyOp (applyOp lwwBase lwwFirstChange) lwwSecondChange)
       "test" "itv" = resolvedIntervalInfo (applyOp lwwBase lwwSecondChange) "test" "itv") ∧
    resolvedIntervalInfo (applyOp (applyOp lwwBase lwwFirstChange) lwwSecondChange)
      "test" "itv" = some (2, 4, "slideOnRemove", []) :=
  ⟨lww_change lwwBase lwwFirstChange lwwSecondChange "test" "itv" 0 2 2 4 rfl rfl,
   by decide⟩

/-- C5: the pending interval add at positions (1,1), captured before
disconnect, is resubmitted with its intent recomputed against the latest
acknowledged state: after six characters were inserted at position 0 by
another peer while offline, the recomputed positions are (7,7), not the
original (1,1); applying the resubmitted add yields an interval resolving to
(7,7). -/
theorem resubmit_recomputes_intent :
    resubmitPositions resubmitAfterOffline resubmitPending = (7, 7) ∧
    (resubmitPending.origLo, resubmitPending.origHi) = (1, 1) ∧
    resolvedIntervalInfo
      (applyOp resubmitAfterOffline ⟨3, 1, 2, .addInterval "test" "itv" 7 7⟩)
      "test" "itv" = some (7, 7, "slideOnRemove", []) ∧
    (7 : Nat) ≠ 1 := by
  refine ⟨by decide, by decide, by decide, by decide⟩

theorem glue_elems (g h : Seg) (hc : canAppend g h = true) :
    (glue g h).elems = g.elems ++ h.elems := by
  simp only [canAppend, Bool.and_eq_true, decide_eq_true_eq] at hc
  obtain ⟨⟨⟨⟨hseq, hcid⟩, hrs⟩, hrc⟩, _⟩ := hc
  simp [glue, Seg.elems, hseq, hcid, hrs, hrc]

theorem flattenSegs_pack (l : List Seg) : flattenSegs (pack l) = flattenSegs l := by
  induction l with
  | nil => rfl
  | cons g rest ih =>
    show flattenSegs (match pack rest with
      | [] => [g]
      | h :: t => if canAppend g h then glue g h :: t else g :: h :: t) = _
    cases hp : pack rest with
    | nil =>
      have h0 : flattenSegs rest = [] := by rw [← ih, hp]; rfl
      show flattenSegs [g] = flattenSegs (g :: rest)
      simp only [flattenSegs, List.map_cons, List.map_nil, List.flatten_cons,
        List.flatten_nil] at h0 ⊢
      rw [h0]
    | cons h t =>
      show flattenSegs (if canAppend g h then glue g h :: t else g :: h :: t) =
        flattenSegs (g :: rest)
      have hht : flattenSegs (h :: t) = flattenSegs rest := by rw [← hp, ih]
      by_cases hc : canAppend g h
      · have hflat : flattenSegs (glue g h :: t) = flattenSegs (g :: h :: t) := by
          simp [flattenSegs, glue_elems g h hc]
        rw [if_pos hc, hflat]
        simp only [flattenSegs, List.map_cons, List.flatten_cons] at hht ⊢
        rw [hht]
      · rw [if_neg hc]
        simp only [flattenSegs, List.map_cons, List.flatten_cons] at hht ⊢
        rw [hht]

theorem flattenSegs_packN (n : Nat) (l : List Seg) :
    flattenSegs (packN n l) = flattenSegs l := by
  induction n generalizing l with
  | zero => rfl
  | succ n ih => rw [packN, ih, flattenSegs_pack]

/-- C6: running the compaction pass zero, one, or many times on any segment
list changes neither the visible text nor the position any anchor resolves to;
anchors keep their logical meaning because the flattened element sequence,
which determines both observables, is invariant under packing. -/
theorem compaction_preserves_observables (l : List Seg) (n : Nat) :
    textOfL (flattenSegs (packN n l)) = textOfL (flattenSegs l) ∧
    ∀ a : Option Nat, resolveAnchorChars (flattenSegs (packN n l)) a =
      resolveAnchorChars (flattenSegs l) a := by
  rw [flattenSegs_packN]
  exact ⟨rfl, fun _ => rfl⟩

theorem lookupIntervalIn_of_not_found (colls : List (String × List Interval))
    (label iid : String) (h : hasIntervalId colls label iid = false) :
    lookupIntervalIn colls label iid = none := by
  induction colls with
  | nil => rfl
  | cons c rest ih =>
    obtain ⟨l, is⟩ := c
    simp only [hasIntervalId, List.any_cons, Bool.or_eq_false_iff,
      Bool.and_eq_false_iff] at h
    by_cases hl : l = label
    · have hno : is.any (fun itv => decide (itv.intervalId = iid)) = false := by
        rcases h.1 with hfalse | hno
        · exact absurd hfalse (by simp [hl])
        · exact hno
      have : is.find? (fun itv => itv.intervalId = iid) = none := by
        rw [List.find?_eq_none]
        intro x hx
        have := List.any_eq_false.mp hno x hx
        simpa using this
      simp [lookupIntervalIn, List.find?_cons, hl, this]
    · have : hasIntervalId rest label iid = false := by
        simp [hasIntervalId, h.2]
      have hrec := ih this
      simp only [lookupIntervalIn, List.find?_cons] at hrec ⊢
      simpa [hl] using hrec

theorem removeIntervalIn_of_not_found (colls : List (String × List Interval))
    (label iid : String) (h : hasIntervalId colls label iid = false) :
    removeIntervalIn label iid colls = colls := by
  induction colls with
  | nil => rfl
  | cons c rest ih =>
    obtain ⟨l, is⟩ := c
    simp only [hasIntervalId, List.any_cons, Bool.or_eq_false_iff,
      Bool.and_eq_false_iff] at h
    by_cases hl : l = label
    · have hno : is.any (fun itv => decide (itv.intervalId = iid)) = false := by
        rcases h.1 with hfalse | hno
        · exact absurd hfalse (by simp [hl])
        · exact hno
      have hall : is.filter (fun itv => itv.intervalId ≠ iid) = is := by
        rw [List.filter_eq_self]
        intro x hx
        have := List.any_eq_false.mp hno x hx
        simpa using this
      show (if l = label then (l, is.filter (fun itv => itv.intervalId ≠ iid)) :: rest
            else (l, is) :: removeIntervalIn label iid rest) = (l, is) :: rest
      rw [if_pos hl, hall]
    · have : hasIntervalId rest label iid = false := by
        simp [hasIntervalId, h.2]
      simp [removeIntervalIn, hl, ih this]

/-- C7: benign conflicts are resolved as defined no-op results, not failures:
looking up an interval by an id absent from the collection yields none (the
undefined result), deleting by an absent id leaves the state unchanged, and
reverting a detach of a node that is not in the tree returns the defined
notFound result (the TypeScript function returns undefined), never a thrown
error. -/
theorem benign_conflicts_noop (s : DocState) (label iid : String)
    (v : List RNode) (n : Nat)
    (h1 : hasIntervalId s.colls label iid = false)
    (h2 : findNode v n = none) :
    lookupIntervalIn s.colls label iid = none ∧
    applyOp s ⟨0, 0, 0, .deleteInterval label iid⟩ = s ∧
    revert [.detach [n] none] v = .notFound ∧
    (revert [.detach [n] none] v).isFatal = false := by
  have hrev : revert [.detach [n] none] v = .notFound := by
    simp [revert, revertGo, h2]
  refine ⟨lookupIntervalIn_of_not_found s.colls label iid h1, ?_, hrev, ?_⟩
  · show { s with colls := removeIntervalIn label iid s.colls } = s
    rw [removeIntervalIn_of_not_found s.colls label iid h1]
  · rw [hrev]
    rfl

/-- C7 witness: on the slide scenario state, looking up and deleting the
unknown interval id "missing" are no-ops, and reverting a detach of the absent
node 99 on a two-node view returns notFound without a fatal error. -/
theorem benign_conflicts_noop_witness :
    lookupIntervalIn slideScenario.colls "test" "missing" = none ∧
    applyOp slideScenario ⟨0, 0, 0, .deleteInterval "test" "missing"⟩ = slideScenario ∧
    revert [.detach [99] none] rviewSample = .notFound ∧
    (revert [.detach [99] none] rviewSample).isFatal = false :=
  benign_conflicts_noop slideScenario "test" "missing" rviewSample 99
    (by decide) (by decide)

/-- C8 counterexample: reverting an insert whose detached-sequence source id
was never built — the malformed case of the revert tests — completes with the
normal notFound result (the TypeScript function returns undefined), exactly
as the benign conflicted cases do, and does not produce a fatal error. -/
theorem malformed_revert_returns_notFound :
    revert [.insertSeq 0 1] rviewSample = .notFound ∧
    (revert [.insertSeq 0 1] rviewSample).isFatal = false := by
  exact ⟨rfl, rfl⟩

/-- C8 amended: reverting a malformed edit — an insert whose source
detached-sequence id was never built, or a detach whose destination id is
already occupied — completes with the defined notFound (undefined) result,
the same no-op policy as benign conflicts, rather than a fatal error; only
splitting a segment at an out-of-range offset fails with an error, and an
in-range split returns two segments whose combined content equals the
original. -/
theorem malformed_ops_policy (v : List RNode) (src sib : Nat) (g : Seg)
    (off : Nat) (hoff : g.content.length < off) :
    revert [.insertSeq src sib] v = .notFound ∧
    (revert [.insertSeq src sib] v).isFatal = false ∧
    revert [.detach [1] (some 0), .detach [1] (some 0)] rviewSample = .notFound ∧
    splitSeg g off = .error "offset out of range" ∧
    ∀ off2 g1 g2, splitSeg g off2 = .ok (g1, g2) →
      g1.content ++ g2.content = g.content := by
  refine ⟨by simp [revert, revertGo], by simp [revert, revertGo, RevertResult.isFatal],
    by decide, ?_, ?_⟩
  · rw [splitSeg, if_neg (by omega)]
  · intro off2 g1 g2 hok
    by_cases hle : off2 ≤ g.content.length
    · rw [splitSeg, if_pos hle] at hok
      obtain ⟨rfl, rfl⟩ : ({ g with content := g.content.take off2 } = g1 ∧
          { g with content := g.content.drop off2 } = g2) := by
        constructor <;> [exact congrArg Prod.fst (Except.ok.inj hok);
          exact congrArg Prod.snd (Except.ok.inj hok)]
      exact List.take_append_drop off2 g.content
    · rw [splitSeg, if_neg hle] at hok
      exact absurd hok (by simp)

/-- C8 amended witness: with the never-built source id 0 over the two-node
view, revert returns notFound and no fatal error; splitting a three-element
segment at offset 4 is out of range and errors, while offset 1 splits into
"a" and "bc". -/
theorem malformed_ops_policy_witness :
    (revert [.insertSeq 0 1] rviewSample = .notFound ∧
     (revert [.insertSeq 0 1] rviewSample).isFatal = false ∧
     revert [.detach [1] (some 0), .detach [1] (some 0)] rviewSample = .notFound ∧
     splitSeg ⟨[(0, 'a'), (1, 'b'), (2, 'c')], 1, 1, none, none, []⟩ 4 =
       .error "offset out of range" ∧
     ∀ off2 g1 g2,
       splitSeg ⟨[(0, 'a'), (1, 'b'), (2, 'c')], 1, 1, none, none, []⟩ off2 =
         .ok (g1, g2) →
       g1.content ++ g2.content = [(0, 'a'), (1, 'b'), (2, 'c')]) ∧
    splitSeg ⟨[(0, 'a'), (1, 'b'), (2, 'c')], 1, 1, none, none, []⟩ 1 =
      .ok (⟨[(0, 'a')], 1, 1, none, none, []⟩, ⟨[(1, 'b'), (2, 'c')], 1, 1, none, none, []⟩) :=
  ⟨malformed_ops_policy rviewSample 0 1 ⟨[(0, 'a'), (1, 'b'), (2, 'c')], 1, 1, none, none, []⟩
     4 (by decide), rfl⟩

/-- C9: SummarizeHeuristicRunner.run invokes trySummarize exactly once with
reason maxTime when the time since the last successful summary strictly
exceeds maxTime, otherwise exactly once with reason maxOps when
opsSinceLastAck strictly exceeds maxOps, and otherwise invokes it zero times
and restarts the idle timer; equality with either threshold does not trigger
a summary since both tests are strict. -/
theorem run_summarize_heuristics (cfg : SummaryConfiguration) (h : HeuristicState) :
    (h.now - h.lastSuccessfulSummaryTime > cfg.maxTime →
      runHeuristics cfg h = [.clearIdleTimer, .trySummarize .maxTime] ∧
      countTrySummarize (runHeuristics cfg h) = 1) ∧
    (h.now - h.lastSuccessfulSummaryTime ≤ cfg.maxTime →
      opsSinceLastAck h > cfg.maxOps →
      runHeuristics cfg h = [.clearIdleTimer, .trySummarize .maxOps] ∧
      countTrySummarize (runHeuristics cfg h) = 1) ∧
    (h.now - h.lastSuccessfulSummaryTime ≤ cfg.maxTime →
      opsSinceLastAck h ≤ cfg.maxOps →
      runHeuristics cfg h = [.restartIdleTimer] ∧
      countTrySummarize (runHeuristics cfg h) = 0) := by
  refine ⟨fun ht => ⟨?_, ?_⟩, fun ht hops => ⟨?_, ?_⟩, fun ht hops => ⟨?_, ?_⟩⟩
  · simp only [runHeuristics, if_pos ht]
  · simp only [runHeuristics, if_pos ht]
    rfl
  · simp only [runHeuristics, if_neg (not_lt.mpr ht), if_pos hops]
  · simp only [runHeuristics, if_neg (not_lt.mpr ht), if_pos hops]
    rfl
  · simp only [runHeuristics, if_neg (not_lt.mpr ht), if_neg (not_lt.mpr hops)]
  · simp only [runHeuristics, if_neg (not_lt.mpr ht), if_neg (not_lt.mpr hops)]
    rfl

/-- C9 witness: with maxTime 100 and maxOps 10, a state whose elapsed time
equals maxTime exactly and whose opsSinceLastAck equals maxOps exactly
triggers no summary: run only restarts the idle timer. -/
theorem run_summarize_heuristics_witness :
    runHeuristics ⟨100, 10⟩ ⟨100, 10, 0, 0⟩ = [.restartIdleTimer] ∧
    countTrySummarize (runHeuristics ⟨100, 10⟩ ⟨100, 10, 0, 0⟩) = 0 :=
  (run_summarize_heuristics ⟨100, 10⟩ ⟨100, 10, 0, 0⟩).2.2 (by decide) (by decide)

/-- C10: getFileBlobType is total and maps exactly the four listed image mime
types to "image", "video/mp4" to "video", "text/plain" to "text" and every
other string to "generic"; the tag it returns for "text/plain" is not among
the type tags of the IGenericBlob union. -/
theorem getFileBlobType_spec :
    getFileBlobType "image/jpeg" = "image" ∧
    getFileBlobType "image/png" = "image" ∧
    getFileBlobType "image/gif" = "image" ∧
    getFileBlobType "image/bmp" = "image" ∧
    getFileBlobType "video/mp4" = "video" ∧
    getFileBlobType "text/plain" = "text" ∧
    (∀ s : String,
      s ∉ ["image/jpeg", "image/png", "image/gif", "image/bmp",
           "video/mp4", "text/plain"] →
      getFileBlobType s = "generic") ∧
    getFileBlobType "text/plain" ∉ genericBlobTypeTags := by
  refine ⟨by decide, by decide, by decide, by decide, by decide, by decide, ?_, by decide⟩
  intro s hs
  simp only [List.mem_cons, List.not_mem_nil, or_false, not_or] at hs
  obtain ⟨h1, h2, h3, h4, h5, h6⟩ := hs
  rw [getFileBlobType, if_neg (by tauto), if_neg h5, if_neg h6]

/-- C10 witness: the mime type "application/pdf" is outside the listed cases
and maps to "generic". -/
theorem getFileBlobType_spec_witness :
    getFileBlobType "application/pdf" = "generic" :=
  getFileBlobType_spec.2.2.2.2.2.2.1 "application/pdf" (by decide)

end FluidSpec
